import Mathlib

/-!
Shallow embedding of the Astikar portfolio engine
(`src/astikar_engine.py` and `src/Astikar_Portfolio_Manager_Pro.py`).

Prices and money amounts are modelled as rationals (the Python code uses
floats); machine-level float rounding is outside the model.  Pandas frames
are modelled as follows: the daily close matrix enters the order engine only
through each column's latest value, so it is modelled as an association list
from ticker to latest close; the weekly matrix used by the momentum ranker is
modelled as a row count together with per-ticker columns of optional values
(`none` = NaN).  A Python exception is modelled as `Except.error` / `Option.none`.
-/

namespace Astikar

/-! ### Configuration constants (`CONFIG` block of both source files) -/

def CAPITAL : ℚ := 50000
def TOP_N : ℕ := 10
def LOOKBACK_WEEKS : ℕ := 12
def MAX_ADDS : ℤ := 2
def MAX_POSITION_MULTIPLIER : ℚ := 2
def REGIME_MA : ℕ := 200
def CRASH_THRESHOLD : ℚ := -(12/100)

/-- Python `int(x)` applied to a nonnegative-or-negative rational: truncation
toward zero.  Used for `int(base_allocation / price)`. -/
def pyInt (q : ℚ) : ℤ := if q < 0 then -⌊-q⌋ else ⌊q⌋

theorem pyInt_eq_floor {q : ℚ} (h : 0 ≤ q) : pyInt q = ⌊q⌋ := by
  simp [pyInt, not_lt.mpr h]

/-! ### Market filters (`regime_filter`, `crash_filter`; identical in both files).
The downloaded index close series is the explicit argument. -/

/-- Last element of a series, `index.iloc[-1]` (0 on an empty list; the code
only reaches this access after a length guard). -/
def lastClose (s : List ℚ) : ℚ := s.getD (s.length - 1) 0

/-- `float(index.iloc[-1]) / float(index.iloc[-63]) - 1`: the trailing
63-session return used by `crash_filter`. -/
def ret_3m (s : List ℚ) : ℚ := lastClose s / s.getD (s.length - 63) 0 - 1

/-- `crash_filter()`: `True` means the gate passes (no crash).  Mirrors the
source: short series return `True`, otherwise the trailing 63-session return
is compared with `ret_3m >= CRASH_THRESHOLD`. -/
def crash_filter (s : List ℚ) : Bool :=
  if s.length < 63 then true
  else decide (CRASH_THRESHOLD ≤ ret_3m s)

/-- The crash monitor signals a crash exactly when `main` takes the
`if not crash_filter():` branch. -/
def crash_detected (s : List ℚ) : Bool := !crash_filter s

/-- `regime_filter()`: latest close strictly above the trailing 200-session
moving average; short series fail the gate. -/
def regime_filter (s : List ℚ) : Bool :=
  if s.length < REGIME_MA then false
  else decide ((s.drop (s.length - REGIME_MA)).sum / (REGIME_MA : ℚ) < lastClose s)

/-! ### Momentum ranker (`generate_portfolio`).
`data.resample("W-FRI").last()` buckets the daily series into weekly bars;
that date-bucketing step is plumbing and the weekly matrix is taken as the
input `Frame`.  `pct_change(LOOKBACK_WEEKS)` at the last row of a column `c`
with `n` rows is `c[n-1]/c[n-13] - 1`, defined only when both cells are
non-missing (modelled without pandas' deprecated pad-filling). -/

structure Frame where
  nrows : ℕ
  cols : List (String × List (Option ℚ))
  deriving Repr

/-- Trailing `LOOKBACK_WEEKS`-step return of one weekly column at the last
row: `weekly.pct_change(12).iloc[-1]` for that column. -/
def latest_return (n : ℕ) (c : List (Option ℚ)) : Option ℚ :=
  if n < LOOKBACK_WEEKS + 1 then none
  else
    match c.getD (n - 1) none, c.getD (n - (LOOKBACK_WEEKS + 1)) none with
    | some a, some b => some (a / b - 1)
    | _, _ => none

/-- `returns.iloc[-1].dropna()`: per-ticker latest trailing returns, in
column order, missing values dropped. -/
def latestRow (n : ℕ) (cols : List (String × List (Option ℚ))) : List (String × ℚ) :=
  cols.filterMap fun c => (latest_return n c.2).map fun r => (c.1, r)

/-- Comparator underlying `sort_values`: ascending by return, ties by
original position.  `sort_values(ascending=False)` argsorts ascending and
reverses the resulting indexer (pandas `nargsort`), so the descending result
is the reverse of the ascending order; the ascending argsort's tie order is
modelled as stable (ties kept in positional order). -/
def rankLE (a b : ℕ × String × ℚ) : Prop :=
  a.2.2 < b.2.2 ∨ (a.2.2 = b.2.2 ∧ a.1 ≤ b.1)

instance : DecidableRel rankLE := fun a b => by unfold rankLE; infer_instance

instance : IsTotal (ℕ × String × ℚ) rankLE := by
  constructor
  intro a b
  rcases lt_trichotomy a.2.2 b.2.2 with h | h | h
  · exact Or.inl (Or.inl h)
  · rcases Nat.le_total a.1 b.1 with h' | h'
    · exact Or.inl (Or.inr ⟨h, h'⟩)
    · exact Or.inr (Or.inr ⟨h.symm, h'⟩)
  · exact Or.inr (Or.inl h)

instance : IsTrans (ℕ × String × ℚ) rankLE := by
  constructor
  intro a b c hab hbc
  rcases hab with h1 | ⟨h1, h1'⟩
  · rcases hbc with h2 | ⟨h2, _⟩
    · exact Or.inl (h1.trans h2)
    · exact Or.inl (h2 ▸ h1)
  · rcases hbc with h2 | ⟨h2, h2'⟩
    · exact Or.inl (h1 ▸ h2)
    · exact Or.inr ⟨h1.trans h2, h1'.trans h2'⟩

/-- `latest.sort_values(ascending=False)` on the indexed latest-return row:
ascending stable sort, then reversal of the indexer. -/
def momentum (latest : List (String × ℚ)) : List (ℕ × String × ℚ) :=
  (List.insertionSort rankLE latest.enum).reverse

/-- `momentum.head(TOP_N).index.tolist()`. -/
def rankTickers (latest : List (String × ℚ)) : List String :=
  ((momentum latest).take TOP_N).map fun x => x.2.1

/-- `generate_portfolio(data)` of `astikar_engine.py`.  On an empty weekly
frame `returns.iloc[-1]` raises `IndexError`, modelled as `none`. -/
def generate_portfolio (d : Frame) : Option (List String) :=
  if d.nrows = 0 then none
  else some (rankTickers (latestRow d.nrows d.cols))

/-- Count of non-missing cells of a weekly column, `weekly[col].notna().sum()`. -/
def countSome (c : List (Option ℚ)) : ℕ := (c.filter Option.isSome).length

/-- `generate_portfolio(data)` of `Astikar_Portfolio_Manager_Pro.py`: raises
when the whole weekly frame is shorter than `12+1` rows, drops columns with
fewer than 13 non-missing cells, then ranks as the engine variant does.
The returned equal `weights` dict is never used downstream and is omitted. -/
def generate_portfolio_pro (d : Frame) : Except String (List String) :=
  if d.nrows < LOOKBACK_WEEKS + 1 then Except.error "Not enough weekly history."
  else
    Except.ok (rankTickers (latestRow d.nrows
      (d.cols.filter fun c => decide (LOOKBACK_WEEKS + 1 ≤ countSome c.2))))

/-! ### Position book and orders (`generate_orders` of both files).
A position row of `portfolio_positions.csv`: columns Ticker, Shares,
Avg_Cost, Adds.  An order is modelled by its ticker and action; the Pro
variant's extra display fields (sector, rounded price, rounded notional) are
derived presentation data and are not modelled. -/

structure Position where
  ticker : String
  shares : ℤ
  avg_cost : ℚ
  adds : ℤ
  deriving Repr, DecidableEq

inductive Action where
  | buy : ℤ → Action
  | add : ℤ → ℤ → Action
  | sellAll : Action
  deriving Repr, DecidableEq

structure Order where
  ticker : String
  act : Action
  deriving Repr, DecidableEq

/-- Quantity carried by a `BUY`/`ADD_k` order; `SELL_ALL` orders carry none. -/
def qtyOf : Action → Option ℤ
  | .buy q => some q
  | .add _ q => some q
  | .sellAll => none

/-- `ticker in price_data.columns` plus `float(price_data[ticker].iloc[-1])`:
the latest close for a ticker, `none` when the column is absent. -/
def lookupPrice (prices : List (String × ℚ)) (t : String) : Option ℚ :=
  (prices.find? fun q => q.1 == t).map Prod.snd

/-- Orders appended while processing one selected ticker, reading the current
working book (`existing = positions[positions["Ticker"] == ticker]`, with
`.values[0]` reading the first matching row). -/
def stepOrders (base : ℚ) (prices : List (String × ℚ)) (book : List Position)
    (t : String) : List Order :=
  match lookupPrice prices t with
  | none => []
  | some price =>
    match book.find? (fun p => p.ticker == t) with
    | none =>
        if 0 < pyInt (base / price) then [⟨t, .buy (pyInt (base / price))⟩] else []
    | some pos =>
        if pos.adds < MAX_ADDS ∧ pos.avg_cost < price ∧
            (pos.shares : ℚ) * price < base * MAX_POSITION_MULTIPLIER then
          if 0 < pyInt (base / price) then
            [⟨t, .add (pos.adds + 1) (pyInt (base / price))⟩]
          else []
        else []

/-- The rewritten row of a pyramid add: `new_shares = shares + add_qty`,
`new_avg = (shares*avg_cost + add_qty*price) / new_shares`, `adds + 1`,
all computed from the first matching row `pos` (`existing.values[0]`). -/
def updRow (base price : ℚ) (pos : Position) (q : Position) : Position :=
  ⟨q.ticker, pos.shares + pyInt (base / price),
    ((pos.shares : ℚ) * pos.avg_cost + (pyInt (base / price) : ℚ) * price) /
      ((pos.shares : ℚ) + (pyInt (base / price) : ℚ)),
    pos.adds + 1⟩

/-- Book mutation performed while processing one selected ticker: a first buy
appends a fresh row (`adds = 0`); a pyramid add rewrites every row of that
ticker with values computed from the first matching row
(`positions.loc[positions["Ticker"]==ticker, ...] = [new_shares,new_avg,adds+1]`). -/
def stepBook (base : ℚ) (prices : List (String × ℚ)) (book : List Position)
    (t : String) : List Position :=
  match lookupPrice prices t with
  | none => book
  | some price =>
    match book.find? (fun p => p.ticker == t) with
    | none =>
        if 0 < pyInt (base / price) then
          book ++ [⟨t, pyInt (base / price), price, 0⟩]
        else book
    | some pos =>
        if pos.adds < MAX_ADDS ∧ pos.avg_cost < price ∧
            (pos.shares : ℚ) * price < base * MAX_POSITION_MULTIPLIER then
          if 0 < pyInt (base / price) then
            book.map fun q => if q.ticker == t then updRow base price pos q else q
          else book
        else book

/-- One iteration of the `for ticker in selected:` loop: orders are appended,
the working book is mutated. -/
def buyStep (base : ℚ) (prices : List (String × ℚ))
    (acc : List Order × List Position) (t : String) : List Order × List Position :=
  (acc.1 ++ stepOrders base prices acc.2 t, stepBook base prices acc.2 t)

/-- `generate_orders(selected, capital, price_data)` of `astikar_engine.py`.
The loaded `positions` frame is the explicit `positions` argument and the
frame passed to `save_positions` is the second component of the result.
Note the sell loop only appends `(ticker, "SELL_ALL")` orders; it does not
remove the rows from `positions`. -/
def generate_orders (selected : List String) (capital : ℚ)
    (prices : List (String × ℚ)) (positions : List Position) :
    List Order × List Position :=
  let base := capital / (TOP_N : ℚ)
  let sells := ((positions.map Position.ticker).filter fun t => decide (t ∉ selected)).map
    fun t => Order.mk t .sellAll
  selected.foldl (buyStep base prices) (sells, positions)

/-- `generate_orders(selected, weights, capital, price_data)` of
`Astikar_Portfolio_Manager_Pro.py` (`weights` is unused by the source body
and omitted).  `sell_list = list(set(prev_portfolio) - set(selected))`: the
set difference is modelled in first-occurrence order (Python set iteration
order is unspecified).  This variant removes sold rows from the book. -/
def generate_orders_pro (selected : List String) (capital : ℚ)
    (prices : List (String × ℚ)) (positions : List Position) :
    List Order × List Position :=
  let base := capital * (1 / (TOP_N : ℚ))
  let sellList := ((positions.map Position.ticker).dedup).filter fun t => decide (t ∉ selected)
  let sells := sellList.map fun t => Order.mk t .sellAll
  let remaining := positions.filter fun p => decide (p.ticker ∉ sellList)
  selected.foldl (buyStep base prices) (sells, remaining)

/-! ### Equity accountant and one engine cycle (`main` of `astikar_engine.py`). -/

/-- The equity summary loop of `main`: sum `Shares * latest close` over rows
whose ticker has a price column, silently skipping the rest. -/
def total_equity (positions : List Position) (prices : List (String × ℚ)) : ℚ :=
  positions.foldl
    (fun acc p =>
      match lookupPrice prices p.ticker with
      | some v => acc + (p.shares : ℚ) * v
      | none => acc)
    0

structure CycleResult where
  orders : List Order
  book : List Position
  equity : Option ℚ
  deriving Repr, DecidableEq

/-- One cycle of `main` in `astikar_engine.py`, with the downloaded series
and the stored book as explicit inputs.  A gated run returns no orders, the
book as loaded, and writes no equity row (`equity = none`); an `IndexError`
escaping `generate_portfolio` is `Except.error`. -/
def runCycle (idx : List ℚ) (d : Frame) (prices : List (String × ℚ))
    (book : List Position) : Except String CycleResult :=
  if regime_filter idx then
    if crash_filter idx then
      match generate_portfolio d with
      | none => Except.error "IndexError"
      | some selected =>
        let res := generate_orders selected CAPITAL prices book
        Except.ok ⟨res.1, res.2, some (total_equity res.2 prices)⟩
    else Except.ok ⟨[], book, none⟩
  else Except.ok ⟨[], book, none⟩

/-! ### Helper views used by the theorems -/

/-- Orders of one ticker. -/
def ordersFor (t : String) (l : List Order) : List Order :=
  l.filter fun o => o.ticker == t

/-- Book rows of one ticker. -/
def rowsFor (t : String) (l : List Position) : List Position :=
  l.filter fun p => p.ticker == t

/-- The pyramiding guard of the source (`adds < MAX_ADDS and
price > avg_cost and current_value < max_value`) together with the nested
`add_qty > 0` check. -/
def can_add (base price : ℚ) (pos : Position) : Prop :=
  pos.adds < MAX_ADDS ∧ pos.avg_cost < price ∧
    (pos.shares : ℚ) * price < base * MAX_POSITION_MULTIPLIER ∧
    0 < pyInt (base / price)

instance (base price : ℚ) (pos : Position) : Decidable (can_add base price pos) := by
  unfold can_add; infer_instance

/-! ### Helper lemmas about one pass of the buy/pyramid loop -/

/-- Case analysis of the orders appended for one selected ticker. -/
theorem stepOrders_cases (base : ℚ) (prices : List (String × ℚ))
    (book : List Position) (t : String) :
    stepOrders base prices book t = [] ∨
    ∃ p, lookupPrice prices t = some p ∧ 0 < pyInt (base / p) ∧
      (stepOrders base prices book t = [⟨t, .buy (pyInt (base / p))⟩] ∨
       ∃ pos, book.find? (fun q => q.ticker == t) = some pos ∧
         stepOrders base prices book t = [⟨t, .add (pos.adds + 1) (pyInt (base / p))⟩]) := by
  cases hl : lookupPrice prices t with
  | none => exact Or.inl (by simp only [stepOrders, hl])
  | some price =>
    cases hf : book.find? (fun p => p.ticker == t) with
    | none =>
      by_cases hq : 0 < pyInt (base / price)
      · exact Or.inr ⟨price, rfl, hq, Or.inl (by simp only [stepOrders, hl, hf, if_pos hq])⟩
      · exact Or.inl (by simp only [stepOrders, hl, hf, if_neg hq])
    | some pos =>
      by_cases hc : pos.adds < MAX_ADDS ∧ pos.avg_cost < price ∧
          (pos.shares : ℚ) * price < base * MAX_POSITION_MULTIPLIER
      · by_cases hq : 0 < pyInt (base / price)
        · exact Or.inr ⟨price, rfl, hq,
            Or.inr ⟨pos, rfl, by simp only [stepOrders, hl, hf, if_pos hc, if_pos hq]⟩⟩
        · exact Or.inl (by simp only [stepOrders, hl, hf, if_pos hc, if_neg hq])
      · exact Or.inl (by simp only [stepOrders, hl, hf, if_neg hc])

/-- Every order appended for ticker `t` names `t`, carries a positive
quantity, and that quantity is `int(base_allocation / price)`. -/
theorem stepOrders_mem {base : ℚ} {prices : List (String × ℚ)} {book : List Position}
    {t : String} {o : Order} (h : o ∈ stepOrders base prices book t) :
    o.ticker = t ∧ ∃ p, lookupPrice prices t = some p ∧
      ∃ q, qtyOf o.act = some q ∧ q = pyInt (base / p) ∧ 0 < q := by
  rcases stepOrders_cases base prices book t with h0 | ⟨p, hp, hq, h0 | ⟨pos, _, h0⟩⟩
  · rw [h0] at h; cases h
  · rw [h0] at h
    rcases List.mem_singleton.1 h with rfl
    exact ⟨rfl, p, hp, _, rfl, rfl, hq⟩
  · rw [h0] at h
    rcases List.mem_singleton.1 h with rfl
    exact ⟨rfl, p, hp, _, rfl, rfl, hq⟩

theorem stepOrders_nonpos {base p : ℚ} {prices : List (String × ℚ)}
    (book : List Position) (t : String) (hp : lookupPrice prices t = some p)
    (hq : pyInt (base / p) ≤ 0) :
    stepOrders base prices book t = [] ∧ stepBook base prices book t = book := by
  have hq' : ¬ 0 < pyInt (base / p) := not_lt.mpr hq
  constructor
  · cases hf : book.find? (fun q => q.ticker == t) with
    | none => simp only [stepOrders, hp, hf, if_neg hq']
    | some pos =>
      by_cases hc : pos.adds < MAX_ADDS ∧ pos.avg_cost < p ∧
          (pos.shares : ℚ) * p < base * MAX_POSITION_MULTIPLIER
      · simp only [stepOrders, hp, hf, if_pos hc, if_neg hq']
      · simp only [stepOrders, hp, hf, if_neg hc]
  · cases hf : book.find? (fun q => q.ticker == t) with
    | none => simp only [stepBook, hp, hf, if_neg hq']
    | some pos =>
      by_cases hc : pos.adds < MAX_ADDS ∧ pos.avg_cost < p ∧
          (pos.shares : ℚ) * p < base * MAX_POSITION_MULTIPLIER
      · simp only [stepBook, hp, hf, if_pos hc, if_neg hq']
      · simp only [stepBook, hp, hf, if_neg hc]

/-- Processing a held ticker: the appended orders are governed exactly by the
pyramiding guard. -/
theorem stepOrders_held {base p : ℚ} {prices : List (String × ℚ)}
    {book : List Position} {t : String} {pos : Position}
    (hp : lookupPrice prices t = some p)
    (hf : book.find? (fun q => q.ticker == t) = some pos) :
    stepOrders base prices book t =
      if can_add base p pos then [⟨t, .add (pos.adds + 1) (pyInt (base / p))⟩] else [] := by
  by_cases hc : pos.adds < MAX_ADDS ∧ pos.avg_cost < p ∧
      (pos.shares : ℚ) * p < base * MAX_POSITION_MULTIPLIER
  · by_cases hq : 0 < pyInt (base / p)
    · simp only [stepOrders, hp, hf, if_pos hc, if_pos hq,
        if_pos (show can_add base p pos from ⟨hc.1, hc.2.1, hc.2.2, hq⟩)]
    · simp only [stepOrders, hp, hf, if_pos hc, if_neg hq,
        if_neg (fun hca : can_add base p pos => hq hca.2.2.2)]
  · simp only [stepOrders, hp, hf, if_neg hc,
      if_neg (fun hca : can_add base p pos => hc ⟨hca.1, hca.2.1, hca.2.2.1⟩)]

/-- Processing a held ticker: the book mutation is governed exactly by the
pyramiding guard. -/
theorem stepBook_held {base p : ℚ} {prices : List (String × ℚ)}
    {book : List Position} {t : String} {pos : Position}
    (hp : lookupPrice prices t = some p)
    (hf : book.find? (fun q => q.ticker == t) = some pos) :
    stepBook base prices book t =
      if can_add base p pos then
        book.map fun q => if q.ticker == t then updRow base p pos q else q
      else book := by
  by_cases hc : pos.adds < MAX_ADDS ∧ pos.avg_cost < p ∧
      (pos.shares : ℚ) * p < base * MAX_POSITION_MULTIPLIER
  · by_cases hq : 0 < pyInt (base / p)
    · simp only [stepBook, hp, hf, if_pos hc, if_pos hq,
        if_pos (show can_add base p pos from ⟨hc.1, hc.2.1, hc.2.2, hq⟩)]
    · simp only [stepBook, hp, hf, if_pos hc, if_neg hq,
        if_neg (fun hca : can_add base p pos => hq hca.2.2.2)]
  · simp only [stepBook, hp, hf, if_neg hc,
      if_neg (fun hca : can_add base p pos => hc ⟨hca.1, hca.2.1, hca.2.2.1⟩)]

/-- Case analysis of the book after one pass. -/
theorem stepBook_cases (base : ℚ) (prices : List (String × ℚ))
    (book : List Position) (t : String) :
    stepBook base prices book t = book ∨
    (∃ p, lookupPrice prices t = some p ∧ 0 < pyInt (base / p) ∧
      (stepBook base prices book t = book ++ [⟨t, pyInt (base / p), p, 0⟩] ∨
       ∃ pos, book.find? (fun q => q.ticker == t) = some pos ∧ pos.adds < MAX_ADDS ∧
         stepBook base prices book t =
           book.map fun q => if q.ticker == t then updRow base p pos q else q)) := by
  cases hl : lookupPrice prices t with
  | none => exact Or.inl (by simp only [stepBook, hl])
  | some price =>
    cases hf : book.find? (fun p => p.ticker == t) with
    | none =>
      by_cases hq : 0 < pyInt (base / price)
      · exact Or.inr ⟨price, rfl, hq, Or.inl (by simp only [stepBook, hl, hf, if_pos hq])⟩
      · exact Or.inl (by simp only [stepBook, hl, hf, if_neg hq])
    | some pos =>
      by_cases hc : pos.adds < MAX_ADDS ∧ pos.avg_cost < price ∧
          (pos.shares : ℚ) * price < base * MAX_POSITION_MULTIPLIER
      · by_cases hq : 0 < pyInt (base / price)
        · exact Or.inr ⟨price, rfl, hq,
            Or.inr ⟨pos, rfl, hc.1, by simp only [stepBook, hl, hf, if_pos hc, if_pos hq]⟩⟩
        · exact Or.inl (by simp only [stepBook, hl, hf, if_pos hc, if_neg hq])
      · exact Or.inl (by simp only [stepBook, hl, hf, if_neg hc])

theorem ordersFor_append (t : String) (l₁ l₂ : List Order) :
    ordersFor t (l₁ ++ l₂) = ordersFor t l₁ ++ ordersFor t l₂ := by
  simp [ordersFor, List.filter_append]

theorem rowsFor_append (t : String) (l₁ l₂ : List Position) :
    rowsFor t (l₁ ++ l₂) = rowsFor t l₁ ++ rowsFor t l₂ := by
  simp [rowsFor, List.filter_append]

theorem ordersFor_stepOrders_ne {u t : String} (h : u ≠ t) (b : ℚ)
    (pr : List (String × ℚ)) (bk : List Position) :
    ordersFor u (stepOrders b pr bk t) = [] := by
  apply List.filter_eq_nil_iff.mpr
  intro o ho
  have h1 : o.ticker = t := (stepOrders_mem ho).1
  simp [h1, Ne.symm h]

theorem rowsFor_map_upd_ne {u t : String} (h : u ≠ t) (upd : Position → Position)
    (hupd : ∀ q, (upd q).ticker = q.ticker) (bk : List Position) :
    rowsFor u (bk.map fun q => if q.ticker == t then upd q else q) = rowsFor u bk := by
  induction bk with
  | nil => rfl
  | cons q l ih =>
    unfold rowsFor at *
    simp only [List.map_cons]
    by_cases hq : q.ticker = t
    · rw [show (if q.ticker == t then upd q else q) = upd q by simp [hq],
        List.filter_cons_of_neg (by simp only [hupd, beq_iff_eq, hq]; exact Ne.symm h),
        List.filter_cons_of_neg (by simp only [beq_iff_eq, hq]; exact Ne.symm h), ih]
    · rw [show (if q.ticker == t then upd q else q) = q by simp [hq]]
      by_cases h4 : q.ticker = u
      · rw [List.filter_cons_of_pos (by simp only [beq_iff_eq]; exact h4),
          List.filter_cons_of_pos (by simp only [beq_iff_eq]; exact h4), ih]
      · rw [List.filter_cons_of_neg (by simp only [beq_iff_eq]; exact h4),
          List.filter_cons_of_neg (by simp only [beq_iff_eq]; exact h4), ih]

theorem rowsFor_map_upd_self (t : String) (upd : Position → Position)
    (hupd : ∀ q, (upd q).ticker = q.ticker) (bk : List Position) :
    rowsFor t (bk.map fun q => if q.ticker == t then upd q else q)
      = (rowsFor t bk).map upd := by
  induction bk with
  | nil => rfl
  | cons q l ih =>
    unfold rowsFor at *
    simp only [List.map_cons]
    by_cases hq : q.ticker = t
    · rw [show (if q.ticker == t then upd q else q) = upd q by simp [hq],
        List.filter_cons_of_pos (by simp only [hupd, beq_iff_eq]; exact hq),
        List.filter_cons_of_pos (by simp only [beq_iff_eq]; exact hq),
        List.map_cons, ih]
    · rw [show (if q.ticker == t then upd q else q) = q by simp [hq],
        List.filter_cons_of_neg (by simp only [beq_iff_eq]; exact hq),
        List.filter_cons_of_neg (by simp only [beq_iff_eq]; exact hq), ih]

theorem rowsFor_stepBook_ne {u t : String} (h : u ≠ t) (b : ℚ)
    (pr : List (String × ℚ)) (bk : List Position) :
    rowsFor u (stepBook b pr bk t) = rowsFor u bk := by
  rcases stepBook_cases b pr bk t with h0 | ⟨p, _, _, h0 | ⟨pos, _, _, h0⟩⟩
  · rw [h0]
  · rw [h0, rowsFor_append]
    have h1 : rowsFor u [(⟨t, pyInt (b / p), p, 0⟩ : Position)] = [] := by
      have : ((⟨t, pyInt (b / p), p, 0⟩ : Position).ticker == u) = false :=
        beq_eq_false_iff_ne.mpr (Ne.symm h)
      simp [rowsFor, List.filter_cons, this]
    rw [h1, List.append_nil]
  · rw [h0, rowsFor_map_upd_ne h (updRow b p pos) (fun q => rfl) bk]

/-- The buy loop only appends orders: the orders accumulated so far stay a
prefix, and everything appended is a positive-quantity buy/add for a
processed ticker, sized `int(base_allocation / price)`. -/
theorem foldl_orders_prefix (b : ℚ) (pr : List (String × ℚ)) (l : List String) :
    ∀ acc : List Order × List Position, ∃ rest,
      (l.foldl (buyStep b pr) acc).1 = acc.1 ++ rest ∧
      ∀ o ∈ rest, o.ticker ∈ l ∧ ∃ p, lookupPrice pr o.ticker = some p ∧
        ∃ q, qtyOf o.act = some q ∧ q = pyInt (b / p) ∧ 0 < q := by
  induction l with
  | nil => exact fun acc => ⟨[], by simp, by simp⟩
  | cons t ts ih =>
    intro acc
    obtain ⟨rest, h1, h2⟩ := ih (buyStep b pr acc t)
    refine ⟨stepOrders b pr acc.2 t ++ rest, ?_, ?_⟩
    · rw [List.foldl_cons, h1]
      show (acc.1 ++ stepOrders b pr acc.2 t) ++ rest = acc.1 ++ (stepOrders b pr acc.2 t ++ rest)
      rw [List.append_assoc]
    · intro o ho
      rcases List.mem_append.1 ho with hm | hm
      · obtain ⟨ht, p, hp, q, hq1, hq2, hq3⟩ := stepOrders_mem hm
        exact ⟨by rw [ht]; exact List.mem_cons_self t ts, p, by rwa [ht], q, hq1, hq2, hq3⟩
      · obtain ⟨ht, rest'⟩ := h2 o hm
        exact ⟨List.mem_cons_of_mem t ht, rest'⟩

/-- Orders and rows of a ticker the buy loop never processes are untouched. -/
theorem foldl_preserve (b : ℚ) (pr : List (String × ℚ)) (t : String) :
    ∀ l : List String, t ∉ l → ∀ acc : List Order × List Position,
      ordersFor t (l.foldl (buyStep b pr) acc).1 = ordersFor t acc.1 ∧
      rowsFor t (l.foldl (buyStep b pr) acc).2 = rowsFor t acc.2 := by
  intro l
  induction l with
  | nil => exact fun _ acc => ⟨rfl, rfl⟩
  | cons u ts ih =>
    intro hl acc
    have hut : t ≠ u := fun h => hl (h ▸ List.mem_cons_self u ts)
    have hts : t ∉ ts := fun h => hl (List.mem_cons_of_mem u h)
    obtain ⟨ih1, ih2⟩ := ih hts (buyStep b pr acc u)
    rw [List.foldl_cons]
    refine ⟨?_, ?_⟩
    · rw [ih1]
      show ordersFor t (acc.1 ++ stepOrders b pr acc.2 u) = ordersFor t acc.1
      rw [ordersFor_append, ordersFor_stepOrders_ne hut, List.append_nil]
    · rw [ih2]
      exact rowsFor_stepBook_ne hut b pr acc.2

/-- A selected ticker whose sized quantity is nonpositive leaves both the
order list and the book untouched, whatever else the loop does. -/
theorem foldl_noop (b : ℚ) (pr : List (String × ℚ)) (t : String) (p : ℚ)
    (hp : lookupPrice pr t = some p) (hq : pyInt (b / p) ≤ 0) :
    ∀ l : List String, ∀ acc : List Order × List Position,
      ordersFor t (l.foldl (buyStep b pr) acc).1 = ordersFor t acc.1 ∧
      rowsFor t (l.foldl (buyStep b pr) acc).2 = rowsFor t acc.2 := by
  intro l
  induction l with
  | nil => exact fun acc => ⟨rfl, rfl⟩
  | cons u ts ih =>
    intro acc
    obtain ⟨ih1, ih2⟩ := ih (buyStep b pr acc u)
    rw [List.foldl_cons]
    refine ⟨?_, ?_⟩
    · rw [ih1]
      show ordersFor t (acc.1 ++ stepOrders b pr acc.2 u) = ordersFor t acc.1
      by_cases hut : t = u
      · subst hut
        rw [(stepOrders_nonpos acc.2 t hp hq).1, List.append_nil]
      · rw [ordersFor_append, ordersFor_stepOrders_ne hut, List.append_nil]
    · rw [ih2]
      by_cases hut : t = u
      · subst hut
        show rowsFor t (stepBook b pr acc.2 t) = rowsFor t acc.2
        rw [(stepOrders_nonpos acc.2 t hp hq).2]
      · exact rowsFor_stepBook_ne hut b pr acc.2

/-- In a book with unique tickers, the rows of a held ticker are exactly the
one held position. -/
theorem rowsFor_eq_single {book : List Position} {pos : Position} {t : String}
    (hnd : (book.map Position.ticker).Nodup) (hmem : pos ∈ book) (ht : pos.ticker = t) :
    rowsFor t book = [pos] := by
  induction book with
  | nil => cases hmem
  | cons q l ih =>
    rw [List.map_cons, List.nodup_cons] at hnd
    rcases List.mem_cons.1 hmem with rfl | hm
    · have h1 : (pos.ticker == t) = true := by rw [ht]; exact beq_self_eq_true t
      have h2 : rowsFor t l = [] := by
        apply List.filter_eq_nil_iff.mpr
        intro r hr
        have hne : r.ticker ≠ t := by
          rw [← ht]
          intro he
          exact hnd.1 (he ▸ List.mem_map_of_mem Position.ticker hr)
        simp [hne]
      unfold rowsFor at *
      rw [List.filter_cons]
      simp [h1, h2]
    · have hqt : q.ticker ≠ t := fun he =>
        hnd.1 (by rw [he, ← ht]; exact List.mem_map_of_mem Position.ticker hm)
      unfold rowsFor at *
      rw [List.filter_cons]
      simp [beq_eq_false_iff_ne.mpr hqt, ih hnd.2 hm]

/-- Filtering the fold's output for `SELL_ALL` recovers exactly the sell
orders computed up front from the pre-mutation snapshot: the buy loop never
emits a sell. -/
theorem sell_filter_of_fold (b : ℚ) (pr : List (String × ℚ)) (sel : List String)
    (sells : List Order) (bk0 : List Position)
    (hsells : ∀ o ∈ sells, o.act = .sellAll) :
    (sel.foldl (buyStep b pr) (sells, bk0)).1.filter
      (fun o => decide (o.act = .sellAll)) = sells := by
  obtain ⟨rest, h1, h2⟩ := foldl_orders_prefix b pr sel (sells, bk0)
  rw [h1, List.filter_append,
    List.filter_eq_self.mpr (fun o ho => by simp [hsells o ho]),
    List.filter_eq_nil_iff.mpr ?_, List.append_nil]
  intro o ho
  obtain ⟨_, p, hp, q, hq, _⟩ := h2 o ho
  simp only [decide_eq_true_eq]
  intro hsell
  rw [hsell] at hq
  exact Option.noConfusion hq

/-- Each processed ticker contributes at most one order, so with unique
inputs the order list's tickers stay unique. -/
theorem foldl_tickers_nodup (b : ℚ) (pr : List (String × ℚ)) :
    ∀ (l : List String) (acc : List Order × List Position), l.Nodup →
      (∀ o ∈ acc.1, o.ticker ∉ l) → (acc.1.map Order.ticker).Nodup →
      ((l.foldl (buyStep b pr) acc).1.map Order.ticker).Nodup := by
  intro l
  induction l with
  | nil => intro acc _ _ h; exact h
  | cons t ts ih =>
    intro acc hnd hnot hacc
    rw [List.foldl_cons]
    apply ih (buyStep b pr acc t) (List.nodup_cons.1 hnd).2
    · intro o ho
      rcases List.mem_append.1 ho with hm | hm
      · exact fun hmem => hnot o hm (List.mem_cons_of_mem t hmem)
      · rw [(stepOrders_mem hm).1]
        exact (List.nodup_cons.1 hnd).1
    · show ((acc.1 ++ stepOrders b pr acc.2 t).map Order.ticker).Nodup
      rw [List.map_append]
      apply List.nodup_append.2
      refine ⟨hacc, ?_, ?_⟩
      · rcases stepOrders_cases b pr acc.2 t with h0 | ⟨p, _, _, h0 | ⟨pos, _, h0⟩⟩ <;>
          simp [h0]
      · intro a ha1 ha2
        obtain ⟨o1, ho1, he1⟩ := List.mem_map.1 ha1
        obtain ⟨o2, ho2, he2⟩ := List.mem_map.1 ha2
        have h2 : o2.ticker = t := (stepOrders_mem ho2).1
        apply hnot o1 ho1
        rw [he1, ← he2, h2]
        exact List.mem_cons_self t ts

/-- The buy loop keeps every position's `adds` within `MAX_ADDS`: a fresh
buy starts at `0` and an add requires `adds < MAX_ADDS` first. -/
theorem foldl_adds_le (b : ℚ) (pr : List (String × ℚ)) :
    ∀ (l : List String) (acc : List Order × List Position),
      (∀ q ∈ acc.2, q.adds ≤ MAX_ADDS) →
      ∀ q ∈ (l.foldl (buyStep b pr) acc).2, q.adds ≤ MAX_ADDS := by
  intro l
  induction l with
  | nil => exact fun acc h => h
  | cons u ts ih =>
    intro acc hacc
    rw [List.foldl_cons]
    apply ih
    intro q hq
    rw [show (buyStep b pr acc u).2 = stepBook b pr acc.2 u from rfl] at hq
    rcases stepBook_cases b pr acc.2 u with h0 | ⟨p, _, _, h0 | ⟨pos, _, hadds, h0⟩⟩
    · rw [h0] at hq
      exact hacc q hq
    · rw [h0] at hq
      rcases List.mem_append.1 hq with hm | hm
      · exact hacc q hm
      · rcases List.mem_singleton.1 hm with rfl
        show (0 : ℤ) ≤ MAX_ADDS
        norm_num [MAX_ADDS]
    · rw [h0] at hq
      obtain ⟨r, hr, rfl⟩ := List.mem_map.1 hq
      by_cases hrt : (r.ticker == u) = true
      · rw [if_pos hrt]
        show pos.adds + 1 ≤ MAX_ADDS
        omega
      · rw [if_neg hrt]
        exact hacc r hr

/-- A name absent from every entry of the latest-return row cannot be
selected by the ranking pipeline. -/
theorem not_mem_rankTickers {latest : List (String × ℚ)} {name : String}
    (h : ∀ x ∈ latest, x.1 ≠ name) : name ∉ rankTickers latest := by
  intro hmem
  simp only [rankTickers, momentum] at hmem
  obtain ⟨x, hx, hx1⟩ := List.mem_map.1 hmem
  have hx2 := List.mem_of_mem_take hx
  rw [List.mem_reverse] at hx2
  have hx3 : x ∈ latest.enum := ((List.perm_insertionSort rankLE _).mem_iff).1 hx2
  have hx4 : x.2 ∈ latest := by
    have := List.mem_map_of_mem Prod.snd hx3
    rwa [List.enum_map_snd] at this
  exact h x.2 hx4 hx1

/-! ### Claim theorems -/

/-- C1: a ticker held but absent from the candidate set gets exactly one
`SELL_ALL` order in both variants, but only the Pro variant removes the
Position from the post-cycle book; `astikar_engine.py` saves the book with
the sold position still in it, contradicting the order it just emitted. -/
theorem c1_sell_does_not_remove_position :
    generate_orders ["BBB.NS"] 50000 [] [⟨"AAA.NS", 10, 100, 0⟩]
      = ([⟨"AAA.NS", .sellAll⟩], [⟨"AAA.NS", 10, 100, 0⟩]) ∧
    generate_orders_pro ["BBB.NS"] 50000 [] [⟨"AAA.NS", 10, 100, 0⟩]
      = ([⟨"AAA.NS", .sellAll⟩], []) :=
  ⟨rfl, rfl⟩

/-- C2 counterexample: a 63-session index series whose trailing return is
exactly −12% is at the claimed "at or below −12%" boundary, yet the code
(`ret_3m >= CRASH_THRESHOLD` passes) signals no crash. -/
theorem c2_threshold_boundary_no_crash :
    ret_3m (List.replicate 62 (100 : ℚ) ++ [88]) ≤ CRASH_THRESHOLD ∧
    crash_detected (List.replicate 62 (100 : ℚ) ++ [88]) = false := by
  have h : ret_3m (List.replicate 62 (100 : ℚ) ++ [88]) = (88 : ℚ) / 100 - 1 := rfl
  constructor
  · rw [h]
    norm_num [CRASH_THRESHOLD]
  · simp only [crash_detected, crash_filter]
    rw [if_neg (by simp), h]
    norm_num [CRASH_THRESHOLD]

/-- C2 (amended): a series shorter than 63 sessions never signals crash, and
for series of at least 63 sessions crash is signalled iff the trailing
63-session return is strictly below −12%. -/
theorem c2_crash_monitor (s : List ℚ) :
    (s.length < 63 → crash_detected s = false) ∧
    (63 ≤ s.length → (crash_detected s = true ↔ ret_3m s < CRASH_THRESHOLD)) := by
  constructor
  · intro h
    simp [crash_detected, crash_filter, h]
  · intro h
    simp [crash_detected, crash_filter, Nat.not_lt.mpr h, not_le]

/-- C2 witness: a concrete 63-session series with a −13% trailing return is
reported as a crash. -/
theorem c2_crash_monitor_witness :
    crash_detected (List.replicate 62 (100 : ℚ) ++ [87]) = true := by
  have h : ret_3m (List.replicate 62 (100 : ℚ) ++ [87]) = (87 : ℚ) / 100 - 1 := rfl
  exact ((c2_crash_monitor _).2 (by decide)).mpr (by rw [h]; norm_num [CRASH_THRESHOLD])

/-- C7: whenever the regime filter fails or the crash monitor signals crash,
the cycle ends with zero orders, the book exactly as loaded, and no equity
row appended. -/
theorem c7_gated_run (idx : List ℚ) (d : Frame) (pr : List (String × ℚ))
    (book : List Position)
    (h : regime_filter idx = false ∨ crash_filter idx = false) :
    runCycle idx d pr book = Except.ok ⟨[], book, none⟩ := by
  rcases h with h | h
  · simp [runCycle, h]
  · cases hr : regime_filter idx <;> simp [runCycle, h, hr]

/-- C7 witness: an empty index series fails the regime gate and the cycle is
a no-op. -/
theorem c7_gated_run_witness :
    runCycle [] ⟨0, []⟩ [] [] = Except.ok ⟨[], [], none⟩ :=
  c7_gated_run [] ⟨0, []⟩ [] [] (Or.inl (by decide))

/-- C9: the equity loop sums `shares * latest_price` over exactly the
positions whose ticker has a latest price; a position without one
contributes nothing — and nothing anywhere in the cycle flags it (the sum is
the only output of the loop).  At the concrete failing input the unpriced
position is silently dropped. -/
theorem c9_equity_skips_unpriced :
    (∀ (book : List Position) (prices : List (String × ℚ)),
      total_equity book prices =
        ((book.filter fun p => (lookupPrice prices p.ticker).isSome).map
          fun p => (p.shares : ℚ) * (lookupPrice prices p.ticker).getD 0).sum) ∧
    total_equity [⟨"AAA.NS", 10, 100, 0⟩, ⟨"BBB.NS", 5, 50, 0⟩] [("AAA.NS", 20)] = 200 := by
  constructor
  · intro book prices
    have key : ∀ (l : List Position) (a : ℚ),
        l.foldl
          (fun acc p =>
            match lookupPrice prices p.ticker with
            | some v => acc + (p.shares : ℚ) * v
            | none => acc)
          a
          = a + ((l.filter fun p => (lookupPrice prices p.ticker).isSome).map
              fun p => (p.shares : ℚ) * (lookupPrice prices p.ticker).getD 0).sum := by
      intro l
      induction l with
      | nil => intro a; simp
      | cons q l ih =>
        intro a
        rw [List.foldl_cons]
        cases hl : lookupPrice prices q.ticker with
        | none =>
          rw [List.filter_cons_of_neg (by simp [hl])]
          simpa [hl] using ih a
        | some v =>
          rw [List.filter_cons_of_pos (by simp [hl])]
          simp only [List.map_cons, List.sum_cons, hl, Option.getD_some]
          rw [ih (a + (q.shares : ℚ) * v)]
          ring
    simpa using key book 0
  · have h : total_equity [⟨"AAA.NS", 10, 100, 0⟩, ⟨"BBB.NS", 5, 50, 0⟩] [("AAA.NS", 20)]
        = 0 + ((10 : ℤ) : ℚ) * 20 := rfl
    rw [h]
    norm_num

/-- C3: on identical inputs both variants of the Order Engine return the
same result (they are pure functions of book, prices and candidate set), and
the `SELL_ALL` orders emitted are exactly those computed from the
pre-mutation snapshot of the book — the buy/add phase, the only phase that
reads the evolving working copy, contributes no sell. -/
theorem c3_decision_idempotent :
    ∀ (sel : List String) (cap : ℚ) (pr : List (String × ℚ)) (book : List Position),
      (generate_orders sel cap pr book = generate_orders sel cap pr book ∧
       generate_orders_pro sel cap pr book = generate_orders_pro sel cap pr book) ∧
      (generate_orders sel cap pr book).1.filter (fun o => decide (o.act = .sellAll))
        = ((book.map Position.ticker).filter fun t => decide (t ∉ sel)).map
            (fun t => Order.mk t .sellAll) ∧
      (generate_orders_pro sel cap pr book).1.filter (fun o => decide (o.act = .sellAll))
        = (((book.map Position.ticker).dedup).filter fun t => decide (t ∉ sel)).map
            (fun t => Order.mk t .sellAll) := by
  intro sel cap pr book
  refine ⟨⟨rfl, rfl⟩, ?_, ?_⟩
  · exact sell_filter_of_fold (cap / (TOP_N : ℚ)) pr sel _ book
      (fun o ho => by obtain ⟨t, _, rfl⟩ := List.mem_map.1 ho; rfl)
  · exact sell_filter_of_fold (cap * (1 / (TOP_N : ℚ))) pr sel _ _
      (fun o ho => by obtain ⟨t, _, rfl⟩ := List.mem_map.1 ho; rfl)

/-- C6: every `BUY`/`ADD_k` order the engine emits has positive quantity
equal to `int(base_allocation / price)` — which is
`⌊base_allocation / price⌋` for a positive price and nonnegative capital —
and a selected ticker whose sized quantity is nonpositive gets no order at
all and leaves its book rows exactly as they were. -/
theorem c6_quantity_sizing :
    (∀ (sel : List String) (cap : ℚ) (pr : List (String × ℚ)) (book : List Position)
       (o : Order) (q : ℤ),
       o ∈ (generate_orders sel cap pr book).1 → qtyOf o.act = some q →
       0 < q ∧ ∃ p, lookupPrice pr o.ticker = some p ∧ q = pyInt (cap / (TOP_N : ℚ) / p) ∧
         (0 < p → 0 ≤ cap → q = ⌊cap / (TOP_N : ℚ) / p⌋)) ∧
    (∀ (sel : List String) (cap : ℚ) (pr : List (String × ℚ)) (book : List Position)
       (t : String) (p : ℚ),
       t ∈ sel → lookupPrice pr t = some p → pyInt (cap / (TOP_N : ℚ) / p) ≤ 0 →
       ordersFor t (generate_orders sel cap pr book).1 = [] ∧
       rowsFor t (generate_orders sel cap pr book).2 = rowsFor t book) := by
  constructor
  · intro sel cap pr book o q ho hq
    have hg : generate_orders sel cap pr book
        = sel.foldl (buyStep (cap / (TOP_N : ℚ)) pr)
            (((book.map Position.ticker).filter fun t => decide (t ∉ sel)).map
              (fun t => Order.mk t .sellAll), book) := rfl
    rw [hg] at ho
    obtain ⟨rest, h1, h2⟩ := foldl_orders_prefix (cap / (TOP_N : ℚ)) pr sel _
    rw [h1] at ho
    rcases List.mem_append.1 ho with hm | hm
    · obtain ⟨u, _, rfl⟩ := List.mem_map.1 hm
      exact Option.noConfusion hq
    · obtain ⟨_, p, hp, q', hq', hqe, hqpos⟩ := h2 o hm
      rw [hq] at hq'
      obtain rfl : q = q' := Option.some_inj.1 hq'
      refine ⟨hqpos, p, hp, hqe, fun hp0 hc0 => ?_⟩
      rw [hqe, pyInt_eq_floor
        (div_nonneg (div_nonneg hc0 (by norm_num [TOP_N])) hp0.le)]
  · intro sel cap pr book t p hts hp hq
    have hg : generate_orders sel cap pr book
        = sel.foldl (buyStep (cap / (TOP_N : ℚ)) pr)
            (((book.map Position.ticker).filter fun u => decide (u ∉ sel)).map
              (fun u => Order.mk u .sellAll), book) := rfl
    rw [hg]
    obtain ⟨h1, h2⟩ := foldl_noop (cap / (TOP_N : ℚ)) pr t p hp hq sel _
    have hsells : ordersFor t
        (((book.map Position.ticker).filter fun u => decide (u ∉ sel)).map
          (fun u => Order.mk u .sellAll)) = [] := by
      apply List.filter_eq_nil_iff.mpr
      intro o ho
      obtain ⟨u, hu, rfl⟩ := List.mem_map.1 ho
      have hu2 : u ∉ sel := by simpa using (List.mem_filter.1 hu).2
      simp only [beq_iff_eq]
      exact fun he => hu2 (he ▸ hts)
  -- the order names `u = t`, but `u ∉ sel` while `t ∈ sel`
    exact ⟨by rw [h1, hsells], by rw [h2]⟩

/-- C6 witness: allocation 5000 with price 6000 sizes to zero shares, so a
selected, unheld ticker gets no order and no position. -/
theorem c6_quantity_sizing_witness :
    ordersFor "AAA.NS" (generate_orders ["AAA.NS"] 50000 [("AAA.NS", 6000)] []).1 = [] ∧
    rowsFor "AAA.NS" (generate_orders ["AAA.NS"] 50000 [("AAA.NS", 6000)] []).2
      = rowsFor "AAA.NS" [] := by
  apply c6_quantity_sizing.2 ["AAA.NS"] 50000 [("AAA.NS", 6000)] [] "AAA.NS" 6000
    (List.mem_cons_self _ _) rfl
  have h : pyInt ((50000 : ℚ) / (TOP_N : ℚ) / 6000) = ⌊(50000 : ℚ) / (TOP_N : ℚ) / 6000⌋ :=
    pyInt_eq_floor (by norm_num [TOP_N])
  rw [h]
  have h2 : (50000 : ℚ) / (TOP_N : ℚ) / 6000 = 5 / 6 := by norm_num [TOP_N]
  rw [h2]
  norm_num

/-- C10: with unique book tickers and a duplicate-free candidate list, no
ticker receives two orders in one run, sells go only to held tickers outside
the candidate set, and buys/adds go only to candidates. -/
theorem c10_one_order_per_ticker :
    ∀ (sel : List String) (cap : ℚ) (pr : List (String × ℚ)) (book : List Position),
      (book.map Position.ticker).Nodup → sel.Nodup →
      (((generate_orders sel cap pr book).1.map Order.ticker).Nodup) ∧
      ∀ o ∈ (generate_orders sel cap pr book).1,
        (o.act = .sellAll → o.ticker ∈ book.map Position.ticker ∧ o.ticker ∉ sel) ∧
        (o.act ≠ .sellAll → o.ticker ∈ sel) := by
  intro sel cap pr book hbk hsel
  have hg : generate_orders sel cap pr book
      = sel.foldl (buyStep (cap / (TOP_N : ℚ)) pr)
          (((book.map Position.ticker).filter fun t => decide (t ∉ sel)).map
            (fun t => Order.mk t .sellAll), book) := rfl
  constructor
  · rw [hg]
    apply foldl_tickers_nodup (cap / (TOP_N : ℚ)) pr sel _ hsel
    · intro o ho
      obtain ⟨u, hu, rfl⟩ := List.mem_map.1 ho
      simpa using (List.mem_filter.1 hu).2
    · have he : ((((book.map Position.ticker).filter fun t => decide (t ∉ sel)).map
          (fun t => Order.mk t .sellAll)).map Order.ticker)
            = (book.map Position.ticker).filter fun t => decide (t ∉ sel) := by
        rw [List.map_map]
        exact List.map_id _
      rw [he]
      exact hbk.filter _
  · intro o ho
    rw [hg] at ho
    obtain ⟨rest, h1, h2⟩ := foldl_orders_prefix (cap / (TOP_N : ℚ)) pr sel _
    rw [h1] at ho
    rcases List.mem_append.1 ho with hm | hm
    · obtain ⟨u, hu, rfl⟩ := List.mem_map.1 hm
      have hu1 : u ∈ book.map Position.ticker := (List.mem_filter.1 hu).1
      have hu2 : u ∉ sel := by simpa using (List.mem_filter.1 hu).2
      exact ⟨fun _ => ⟨hu1, hu2⟩, fun hne => absurd rfl hne⟩
    · obtain ⟨hmem, p, hp, q, hq, _⟩ := h2 o hm
      refine ⟨fun hsell => ?_, fun _ => hmem⟩
      rw [hsell] at hq
      exact Option.noConfusion hq

/-- C10 witness: one held ticker leaves the candidate set while another
enters; the run emits one sell and one buy, for distinct tickers. -/
theorem c10_one_order_per_ticker_witness :
    (((generate_orders ["BBB.NS"] 50000 [("BBB.NS", 100)]
        [⟨"AAA.NS", 10, 100, 0⟩]).1.map Order.ticker).Nodup) :=
  (c10_one_order_per_ticker ["BBB.NS"] 50000 [("BBB.NS", 100)]
    [⟨"AAA.NS", 10, 100, 0⟩] (by simp) (by simp)).1

/-- C5: for a held, selected ticker an `ADD_{adds+1}` order is emitted iff
`adds < MAX_ADDS`, the price strictly exceeds `avg_cost`, `shares * price`
is strictly below `base_allocation * MAX_POSITION_MULTIPLIER`, and the sized
quantity is positive; on execution the row becomes the quantity-weighted
average `(shares*avg_cost + add_qty*price) / (shares + add_qty)` with `adds`
incremented, otherwise the row is untouched.  Moreover `adds ≤ MAX_ADDS` is
an invariant of the whole run. -/
theorem c5_pyramiding :
    (∀ (sel : List String) (cap : ℚ) (pr : List (String × ℚ)) (book : List Position)
       (t : String) (pos : Position) (p : ℚ),
       (book.map Position.ticker).Nodup → sel.Nodup →
       pos ∈ book → pos.ticker = t → t ∈ sel → lookupPrice pr t = some p →
       (can_add (cap / (TOP_N : ℚ)) p pos →
          ordersFor t (generate_orders sel cap pr book).1
            = [⟨t, .add (pos.adds + 1) (pyInt (cap / (TOP_N : ℚ) / p))⟩] ∧
          rowsFor t (generate_orders sel cap pr book).2
            = [⟨t, pos.shares + pyInt (cap / (TOP_N : ℚ) / p),
                ((pos.shares : ℚ) * pos.avg_cost + (pyInt (cap / (TOP_N : ℚ) / p) : ℚ) * p) /
                  ((pos.shares : ℚ) + (pyInt (cap / (TOP_N : ℚ) / p) : ℚ)),
                pos.adds + 1⟩]) ∧
       (¬ can_add (cap / (TOP_N : ℚ)) p pos →
          ordersFor t (generate_orders sel cap pr book).1 = [] ∧
          rowsFor t (generate_orders sel cap pr book).2 = [pos])) ∧
    (∀ (sel : List String) (cap : ℚ) (pr : List (String × ℚ)) (book : List Position),
       (∀ q ∈ book, q.adds ≤ MAX_ADDS) →
       ∀ q ∈ (generate_orders sel cap pr book).2, q.adds ≤ MAX_ADDS) := by
  constructor
  · intro sel cap pr book t pos p hbk hsel hmem ht hts hp
    obtain ⟨l1, l2, rfl⟩ := List.append_of_mem hts
    have hnd := List.nodup_append.1 hsel
    have ht1 : t ∉ l1 := fun h => hnd.2.2 h (List.mem_cons_self t l2)
    have ht2 : t ∉ l2 := (List.nodup_cons.1 hnd.2.1).1
    have hg : generate_orders (l1 ++ t :: l2) cap pr book
        = (l1 ++ t :: l2).foldl (buyStep (cap / (TOP_N : ℚ)) pr)
            (((book.map Position.ticker).filter fun u => decide (u ∉ l1 ++ t :: l2)).map
              (fun u => Order.mk u .sellAll), book) := rfl
    obtain ⟨o1, r1⟩ := foldl_preserve (cap / (TOP_N : ℚ)) pr t l1 ht1
      (((book.map Position.ticker).filter fun u => decide (u ∉ l1 ++ t :: l2)).map
        (fun u => Order.mk u .sellAll), book)
    have hsells0 : ordersFor t
        (((book.map Position.ticker).filter fun u => decide (u ∉ l1 ++ t :: l2)).map
          (fun u => Order.mk u .sellAll)) = [] := by
      apply List.filter_eq_nil_iff.mpr
      intro o ho
      obtain ⟨u, hu, rfl⟩ := List.mem_map.1 ho
      have hu2 : u ∉ l1 ++ t :: l2 := by simpa using (List.mem_filter.1 hu).2
      simp only [beq_iff_eq]
      exact fun he => hu2 (he ▸ hts)
    have hrows : rowsFor t book = [pos] := rowsFor_eq_single hbk hmem ht
    have hfind : (l1.foldl (buyStep (cap / (TOP_N : ℚ)) pr)
        (((book.map Position.ticker).filter fun u => decide (u ∉ l1 ++ t :: l2)).map
          (fun u => Order.mk u .sellAll), book)).2.find? (fun q => q.ticker == t)
        = some pos := by
      rw [← List.filter_head?]
      show (rowsFor t _).head? = some pos
      rw [r1, hrows]
      rfl
    obtain ⟨o2, r2⟩ := foldl_preserve (cap / (TOP_N : ℚ)) pr t l2 ht2
      (buyStep (cap / (TOP_N : ℚ)) pr
        (l1.foldl (buyStep (cap / (TOP_N : ℚ)) pr)
          (((book.map Position.ticker).filter fun u => decide (u ∉ l1 ++ t :: l2)).map
            (fun u => Order.mk u .sellAll), book)) t)
    rw [hg, List.foldl_append, List.foldl_cons]
    constructor
    · intro hca
      constructor
      · rw [o2]
        show ordersFor t (_ ++ stepOrders (cap / (TOP_N : ℚ)) pr _ t) = _
        rw [ordersFor_append, o1, hsells0, stepOrders_held hp hfind, if_pos hca]
        simp [ordersFor]
      · rw [r2]
        show rowsFor t (stepBook (cap / (TOP_N : ℚ)) pr _ t) = _
        rw [stepBook_held hp hfind, if_pos hca,
          rowsFor_map_upd_self t (updRow (cap / (TOP_N : ℚ)) p pos) (fun q => rfl),
          r1, hrows]
        simp [updRow, ht]
    · intro hca
      constructor
      · rw [o2]
        show ordersFor t (_ ++ stepOrders (cap / (TOP_N : ℚ)) pr _ t) = _
        rw [ordersFor_append, o1, hsells0, stepOrders_held hp hfind, if_neg hca]
        simp [ordersFor]
      · rw [r2]
        show rowsFor t (stepBook (cap / (TOP_N : ℚ)) pr _ t) = _
        rw [stepBook_held hp hfind, if_neg hca, r1, hrows]
  · intro sel cap pr book hbook
    have hg : generate_orders sel cap pr book
        = sel.foldl (buyStep (cap / (TOP_N : ℚ)) pr)
            (((book.map Position.ticker).filter fun u => decide (u ∉ sel)).map
              (fun u => Order.mk u .sellAll), book) := rfl
    rw [hg]
    exact foldl_adds_le (cap / (TOP_N : ℚ)) pr sel _ hbook

/-- C5 witness: the spec's worked example — 20 shares at cost 247.50, price
300, allocation 5000 — yields `ADD_1` for 16 shares. -/
theorem c5_pyramiding_witness :
    ordersFor "AAA.NS" (generate_orders ["AAA.NS"] 50000 [("AAA.NS", 300)]
        [⟨"AAA.NS", 20, 495/2, 0⟩]).1
      = [⟨"AAA.NS", .add 1 16⟩] := by
  have hq : pyInt ((50000 : ℚ) / (TOP_N : ℚ) / 300) = 16 := by
    rw [pyInt_eq_floor (by norm_num [TOP_N])]
    norm_num [TOP_N]
  have hca : can_add ((50000 : ℚ) / (TOP_N : ℚ)) 300 (⟨"AAA.NS", 20, 495/2, 0⟩ : Position) := by
    refine ⟨by norm_num [MAX_ADDS], by norm_num, by norm_num [TOP_N, MAX_POSITION_MULTIPLIER], ?_⟩
    rw [hq]
    norm_num
  have h := (c5_pyramiding.1 ["AAA.NS"] 50000 [("AAA.NS", 300)]
      [⟨"AAA.NS", 20, 495/2, 0⟩] "AAA.NS" ⟨"AAA.NS", 20, 495/2, 0⟩ 300
      (by simp) (by simp) (by simp) rfl (by simp) rfl).1 hca
  simpa [hq] using h.1

/-- C4 counterexample: two instruments with identical 12-week returns, in
column order AAA then BBB, are ranked BBB before AAA — pandas'
`sort_values(ascending=False)` reverses an ascending argsort, so ties come
out in reverse of original order, not original universe order. -/
theorem c4_ties_not_original_order :
    generate_portfolio ⟨13, [("AAA.NS", List.replicate 13 (some (1 : ℚ))),
        ("BBB.NS", List.replicate 13 (some (1 : ℚ)))]⟩
      = some ["BBB.NS", "AAA.NS"] ∧
    (some ["BBB.NS", "AAA.NS"] : Option (List String)) ≠ some ["AAA.NS", "BBB.NS"] := by
  have h0 : latest_return 13 (List.replicate 13 (some (1 : ℚ))) = some ((1 : ℚ) / 1 - 1) := rfl
  have h1 : latest_return 13 (List.replicate 13 (some (1 : ℚ))) = some 0 := by
    rw [h0]
    norm_num
  have hlr : latestRow 13 [("AAA.NS", List.replicate 13 (some (1 : ℚ))),
      ("BBB.NS", List.replicate 13 (some (1 : ℚ)))]
      = [("AAA.NS", 0), ("BBB.NS", 0)] := by
    unfold latestRow
    rw [List.filterMap_cons_some (by rw [show (("AAA.NS", List.replicate 13 (some (1 : ℚ)))).2
        = List.replicate 13 (some (1 : ℚ)) from rfl, h1]; rfl),
      List.filterMap_cons_some (by rw [show (("BBB.NS", List.replicate 13 (some (1 : ℚ)))).2
        = List.replicate 13 (some (1 : ℚ)) from rfl, h1]; rfl),
      List.filterMap_nil]
  constructor
  · have hm : generate_portfolio ⟨13, [("AAA.NS", List.replicate 13 (some (1 : ℚ))),
        ("BBB.NS", List.replicate 13 (some (1 : ℚ)))]⟩
        = some (rankTickers [("AAA.NS", 0), ("BBB.NS", 0)]) := by
      simp only [generate_portfolio]
      rw [if_neg (by norm_num), hlr]
    rw [hm]
    rfl
  · simp

/-- C4 (amended): momentum ranking is deterministic and the ranked list is
ordered by trailing return descending, but ties appear in reverse of their
original column position (the descending sort reverses an ascending one),
not in original universe order. -/
theorem c4_ranker (d : Frame) :
    generate_portfolio d = generate_portfolio d ∧
    List.Pairwise (fun a b : ℕ × String × ℚ =>
      b.2.2 < a.2.2 ∨ (b.2.2 = a.2.2 ∧ b.1 ≤ a.1)) (momentum (latestRow d.nrows d.cols)) ∧
    (d.nrows ≠ 0 →
      generate_portfolio d
        = some (((momentum (latestRow d.nrows d.cols)).take TOP_N).map fun x => x.2.1)) := by
  refine ⟨rfl, ?_, ?_⟩
  · have hs := List.sorted_insertionSort rankLE (latestRow d.nrows d.cols).enum
    simp only [momentum]
    exact List.pairwise_reverse.mpr hs
  · intro h
    simp only [generate_portfolio, rankTickers, if_neg h]

/-- C4 witness: on a one-column frame with 13 weekly rows the selection is
the head of the ranked momentum list. -/
theorem c4_ranker_witness :
    generate_portfolio ⟨13, [("CCC.NS", List.replicate 13 (some (1 : ℚ)))]⟩
      = some (((momentum (latestRow 13 [("CCC.NS", List.replicate 13 (some (1 : ℚ)))])).take
          TOP_N).map fun x => x.2.1) :=
  (c4_ranker _).2.2 (by norm_num)

/-- C8 counterexample: a weekly frame with only 5 rows makes the Pro ranker
raise `Exception("Not enough weekly history.")` — a hard failure, not a
drop. -/
theorem c8_short_history_raises :
    generate_portfolio_pro ⟨5, [("AAA.NS", List.replicate 5 (some (1 : ℚ)))]⟩
      = Except.error "Not enough weekly history." := rfl

/-- C8 (amended): per-component fail-safes hold — a short index series fails
the regime gate and reports no crash, the Pro ranker proceeds whenever the
frame has at least `LOOKBACK_WEEKS + 1` rows and drops instruments with
fewer than `LOOKBACK_WEEKS + 1` non-missing weekly points, and the engine
ranker drops instruments with an undefined trailing return — but a weekly
frame with fewer than `LOOKBACK_WEEKS + 1` rows raises in the Pro variant
(see the counterexample). -/
theorem c8_insufficiency :
    (∀ s : List ℚ, s.length < REGIME_MA → regime_filter s = false) ∧
    (∀ s : List ℚ, s.length < 63 → crash_detected s = false) ∧
    (∀ d : Frame, LOOKBACK_WEEKS + 1 ≤ d.nrows →
       generate_portfolio_pro d = Except.ok (rankTickers (latestRow d.nrows
         (d.cols.filter fun c => decide (LOOKBACK_WEEKS + 1 ≤ countSome c.2))))) ∧
    (∀ d : Frame, (d.cols.map Prod.fst).Nodup →
       ∀ c ∈ d.cols, countSome c.2 < LOOKBACK_WEEKS + 1 →
       ∀ sel', generate_portfolio_pro d = Except.ok sel' → c.1 ∉ sel') ∧
    (∀ d : Frame, (d.cols.map Prod.fst).Nodup →
       ∀ c ∈ d.cols, latest_return d.nrows c.2 = none →
       ∀ sel', generate_portfolio d = some sel' → c.1 ∉ sel') := by
  refine ⟨?_, ?_, ?_, ?_, ?_⟩
  · intro s h
    simp [regime_filter, h]
  · intro s h
    simp [crash_detected, crash_filter, h]
  · intro d h
    simp only [generate_portfolio_pro, if_neg (Nat.not_lt.mpr h)]
  · intro d hnd c hc hcount sel' hsel'
    by_cases hn : d.nrows < LOOKBACK_WEEKS + 1
    · rw [generate_portfolio_pro, if_pos hn] at hsel'
      exact Except.noConfusion hsel'
    · rw [generate_portfolio_pro, if_neg hn] at hsel'
      injection hsel' with he
      subst he
      apply not_mem_rankTickers
      intro x hx hxe
      obtain ⟨c', hc', hx'⟩ := List.mem_filterMap.1 hx
      obtain ⟨r, hr, he2⟩ := Option.map_eq_some'.1 hx'
      have hcc : c'.1 = c.1 := by rw [← he2] at hxe; exact hxe
      have hc'mem := List.mem_filter.1 hc'
      have hce : c' = c := List.inj_on_of_nodup_map hnd hc'mem.1 hc hcc
      rw [hce] at hc'mem
      have h13 : LOOKBACK_WEEKS + 1 ≤ countSome c.2 := by simpa using hc'mem.2
      omega
  · intro d hnd c hc hnone sel' hsel'
    by_cases hn : d.nrows = 0
    · rw [generate_portfolio, if_pos hn] at hsel'
      exact Option.noConfusion hsel'
    · rw [generate_portfolio, if_neg hn] at hsel'
      injection hsel' with he
      subst he
      apply not_mem_rankTickers
      intro x hx hxe
      obtain ⟨c', hc', hx'⟩ := List.mem_filterMap.1 hx
      obtain ⟨r, hr, he2⟩ := Option.map_eq_some'.1 hx'
      have hcc : c'.1 = c.1 := by rw [← he2] at hxe; exact hxe
      have hce : c' = c := List.inj_on_of_nodup_map hnd hc' hc hcc
      rw [hce, hnone] at hr
      exact Option.noConfusion hr

/-- C8 witness: an empty index series hits both fail-safe defaults, and a
column with a single non-missing weekly point is dropped from candidacy by
the Pro ranker while a fully-populated column is selected. -/
theorem c8_insufficiency_witness :
    regime_filter [] = false ∧ crash_detected [] = false ∧
    ("AAA.NS" : String) ∉ ["BBB.NS"] :=
  ⟨c8_insufficiency.1 [] (by decide),
   c8_insufficiency.2.1 [] (by decide),
   c8_insufficiency.2.2.2.1
     ⟨13, [("AAA.NS", some 1 :: List.replicate 12 none),
           ("BBB.NS", List.replicate 13 (some 1))]⟩
     (by decide) ("AAA.NS", some 1 :: List.replicate 12 none) (by decide) (by decide)
     ["BBB.NS"] rfl⟩

end Astikar
